import Mathlib

/-
Shallow embedding of the log-segmentation engine of nu_plugin_unity
(src/main.rs).  Text is modelled as a list of characters; the Rust string
operations used by the engine (replace, split_terminator, rfind, split_at,
split_once, lines, trim, trim_start_matches, starts_with, contains) are
modelled as executable functions on character lists with the same
semantics at the character level.
-/

namespace Unity

abbrev Str := List Char

/- const LOG_KEYWORD: &str = "UnityEngine.Debug:Log"; -/
def logKeyword : Str := "UnityEngine.Debug:Log".toList

/- Model of str::replace("\r\n", "\n"): leftmost, non-overlapping. -/
def replaceCRLF : Str → Str
  | '\r' :: '\n' :: rest => '\n' :: replaceCRLF rest
  | c :: rest => c :: replaceCRLF rest
  | [] => []

/- Model of str::replace("\r", "\n"). -/
def replaceCR : Str → Str
  | '\r' :: rest => '\n' :: replaceCR rest
  | c :: rest => c :: replaceCR rest
  | [] => []

/- Lines 65-66 of main.rs: s.replace("\r\n", "\n").replace("\r", "\n"). -/
def sanitize (s : Str) : Str := replaceCR (replaceCRLF s)

/- Model of str::split on the two-character pattern "\n\n": leftmost,
non-overlapping matches. -/
def splitEmptyNewline : Str → List Str
  | '\n' :: '\n' :: rest => [] :: splitEmptyNewline rest
  | c :: rest =>
    match splitEmptyNewline rest with
    | [] => [[c]]
    | p :: ps => (c :: p) :: ps
  | [] => [[]]

/- split_terminator skips the trailing piece when it is empty. -/
def dropLastEmpty (ps : List Str) : List Str :=
  match ps.getLast? with
  | some [] => ps.dropLast
  | _ => ps

/- Model of input.split_terminator(EMPTY_NEWLINE) with EMPTY_NEWLINE = "\n\n". -/
def splitTerminator (s : Str) : List Str :=
  dropLastEmpty (splitEmptyNewline s)

/- Model of str::split_once('\n'). -/
def splitOnceNl : Str → Option (Str × Str)
  | [] => none
  | '\n' :: rest => some ([], rest)
  | c :: rest => (splitOnceNl rest).map (fun p => (c :: p.1, p.2))

/- One trailing carriage return is removed from a newline-terminated line. -/
def stripTrailingCR (l : Str) : Str :=
  match l.getLast? with
  | some '\r' => l.dropLast
  | _ => l

/- All pieces of a text cut at every newline (the trailing piece kept). -/
def splitNl : Str → List Str
  | [] => [[]]
  | '\n' :: cs => [] :: splitNl cs
  | c :: cs =>
    match splitNl cs with
    | [] => [[c]]
    | p :: ps => (c :: p) :: ps

/- Every piece but the last was newline-terminated, so its optional
trailing carriage return is stripped; a trailing empty piece is dropped. -/
def stripInit : List Str → List Str
  | [] => []
  | [p] => if p = [] then [] else [p]
  | p :: ps => stripTrailingCR p :: stripInit ps

/- Model of str::lines(): lines end at a newline (whose optional preceding
carriage return is stripped); a final line without a terminator is kept
verbatim; the empty string yields no lines. -/
def linesOf (s : Str) : List Str := stripInit (splitNl s)

/- Whether pat occurs as a prefix of s at position i. -/
def occursAt (pat s : Str) (i : Nat) : Bool := pat.isPrefixOf (s.drop i)

/- Model of str::contains(pat): pat occurs somewhere in s. -/
def containsStr (s pat : Str) : Bool :=
  (List.range (s.length + 1)).any (fun i => occursAt pat s i)

/- Model of str::rfind(pat): start position of the last occurrence. -/
def rfindIdx (pat s : Str) : Option Nat :=
  ((List.range (s.length + 1)).filter (fun i => occursAt pat s i)).getLast?

/- Model of str::trim_start_matches(pat): strip repeated leading copies.
The fuel argument only bounds the recursion; every strip of a nonempty
pattern consumes at least one character, so fuel s.length is never
exhausted before the prefix test fails. -/
def trimStartMatchesAux (pat : Str) : Nat → Str → Str
  | 0, s => s
  | fuel + 1, s =>
    if pat ≠ [] ∧ pat.isPrefixOf s = true then
      trimStartMatchesAux pat fuel (s.drop pat.length)
    else s

def trimStartMatches (pat : Str) (s : Str) : Str :=
  trimStartMatchesAux pat s.length s

inductive LogType where
  | Log
  | Warning
  | Error
  | Unknown
deriving DecidableEq

/- Display text of a LogType (fmt::Display via Debug derive). -/
def LogType.display : LogType → Str
  | .Log => "Log".toList
  | .Warning => "Warning".toList
  | .Error => "Error".toList
  | .Unknown => "Unknown".toList

structure LogLine where
  log_type : LogType
  message : Str
  callstack : Str
  trimmed_callstack : Str
deriving DecidableEq

/- LogLine::same: equality of (log_type, message). -/
def LogLine.same (a b : LogLine) : Bool :=
  a.log_type = b.log_type ∧ a.message = b.message

structure Config where
  count : Nat
  no_collapse : Bool

/- impl Default for UnityLog: count = 3, no_collapse = false. -/
def defaultConfig : Config := { count := 3, no_collapse := false }

/- Lines 76-84 of main.rs: the custom-logging-method trimming applied to
the user-log region of a block. -/
def codeTrim (user_log : Str) : Str :=
  let custom_method := (linesOf user_log).headD []
  if containsStr custom_method "Debug".toList || containsStr custom_method "Log".toList then
    match splitOnceNl user_log with
    | none => user_log
    | some p => p.2
  else user_log

/- Lines 86-94 of main.rs: severity classification of the tail. -/
def classify (bottom : Str) : LogType :=
  let type_line := trimStartMatches logKeyword bottom
  if "Error".toList.isPrefixOf type_line then .Error
  else if "Warning".toList.isPrefixOf type_line then .Warning
  else .Log

/- Lines 71-103 of main.rs: the per-block closure of the primary mode. -/
def parseBlock (block : Str) : Option LogLine :=
  match rfindIdx logKeyword block with
  | none => none
  | some index =>
    let bottom := block.drop index
    match splitOnceNl bottom with
    | none => none
    | some p =>
      some { log_type := classify bottom
             message := (linesOf block).headD []
             callstack := block
             trimmed_callstack := codeTrim p.2 }

/- Lines 68-105 of main.rs: marker-filtered blocks, flattened. -/
def primaryLines (input : Str) : List LogLine :=
  ((splitTerminator input).filter (fun b => containsStr b logKeyword)).filterMap parseBlock

/- Lines 110-121 of main.rs: the fallback (player-log) mode. -/
def fallbackLines (input : Str) : List LogLine :=
  (splitTerminator input).filterMap (fun block =>
    match (linesOf block).head? with
    | none => none
    | some msg =>
      match splitOnceNl block with
      | none => none
      | some p =>
        some { log_type := .Unknown
               message := msg
               callstack := block
               trimmed_callstack := p.2 })

/- Lines 65-122 of main.rs: sanitize, primary mode, fallback when empty. -/
def parseLines (raw : Str) : List LogLine :=
  let input := sanitize raw
  let lines := primaryLines input
  if lines.isEmpty then fallbackLines input else lines

/- Lexicographic order on character lists (Rust str ordering). -/
def strLe : Str → Str → Bool
  | [], _ => true
  | _ :: _, [] => false
  | x :: xs, y :: ys => if x < y then true else if y < x then false else strLe xs ys

/- Stable insertion used to model Vec::sort_by_key(|x| x.message). -/
def insertLine (a : LogLine) : List LogLine → List LogLine
  | [] => [a]
  | b :: rest =>
    if strLe a.message b.message then a :: b :: rest else b :: insertLine a rest

def sortLines : List LogLine → List LogLine
  | [] => []
  | a :: rest => insertLine a (sortLines rest)

/- Vec::dedup_by(|a, b| a.same(b)): drop an element equal (under same) to
the previously retained one. -/
def dedupAux (prev : LogLine) : List LogLine → List LogLine
  | [] => []
  | b :: rest =>
    if prev.same b then dedupAux prev rest else b :: dedupAux b rest

def dedupSame : List LogLine → List LogLine
  | [] => []
  | a :: rest => a :: dedupAux a rest

/- Lines 124-127 of main.rs: the sort-and-dedup step is gated on the
no_collapse field being TRUE (as written in the source). -/
def collapseStep (cfg : Config) (lines : List LogLine) : List LogLine :=
  if cfg.no_collapse then dedupSame (sortLines lines) else lines

/- Model of str::trim(): drop whitespace at both ends. -/
def trimStr (l : Str) : Str :=
  ((l.dropWhile Char.isWhitespace).reverse.dropWhile Char.isWhitespace).reverse

structure Row where
  type : Str
  message : Str
  short : Str
deriving DecidableEq

/- Lines 144-149 of main.rs: the truncated summary string. -/
def shortOf (count : Nat) (t : Str) : Str :=
  (((linesOf t).take count).map trimStr).flatten

/- Lines 129-163 of main.rs: the emitted record of one entry. -/
def mkRow (cfg : Config) (line : LogLine) : Row :=
  { type := line.log_type.display
    message := line.message
    short := shortOf cfg.count line.trimmed_callstack }

def outputRows (cfg : Config) (s : Str) : List Row :=
  (collapseStep cfg (parseLines s)).map (mkRow cfg)

/- The spec-side notion of the first line of a text. -/
def firstLine (l : Str) : Str := l.takeWhile (fun c => c ≠ '\n')

/- The number of lines of a text, in the sense of str::lines(). -/
def numLines (l : Str) : Nat := (linesOf l).length

/- Whether the engine takes the fallback (player-log) branch on an input. -/
def usesFallback (s : Str) : Bool := (primaryLines (sanitize s)).isEmpty

/- The user-log region of a block: the text after the first newline that
follows the last occurrence of the marker (empty when absent). -/
def userLogOf (b : Str) : Str :=
  match rfindIdx logKeyword b with
  | none => []
  | some i =>
    match splitOnceNl (b.drop i) with
    | none => []
    | some p => p.2

/- The trimming rule exactly as the claim words it: when the first line of
the user-log region contains Debug or Log, that first line is dropped. -/
def claimTrim (ul : Str) : Str :=
  if containsStr (firstLine ul) "Debug".toList || containsStr (firstLine ul) "Log".toList then
    (ul.dropWhile (fun c => c ≠ '\n')).tail
  else ul

/- The amended trimming rule: the matching first line is dropped only when
the region contains a newline; a single-line region is left unchanged. -/
def amendedTrim (ul : Str) : Str :=
  if containsStr (firstLine ul) "Debug".toList || containsStr (firstLine ul) "Log".toList then
    if '\n' ∈ ul then (ul.dropWhile (fun c => c ≠ '\n')).tail else ul
  else ul

/- Model of the nu value and error types seen by UnityLog::len. -/
inductive Primitive where
  | string (s : Str)
  | int (i : Int)
  | boolean (b : Bool)
  | nothing
deriving DecidableEq

inductive UntaggedValue where
  | primitive (p : Primitive)
  | row
  | table
deriving DecidableEq

structure Tag where
  span : Nat × Nat
deriving DecidableEq

structure Value where
  value : UntaggedValue
  tag : Tag
deriving DecidableEq

def isStringValue (v : Value) : Bool :=
  match v.value with
  | .primitive (.string _) => true
  | _ => false

structure ShellError where
  error : Str
  label : Str
  span : Nat × Nat
deriving DecidableEq

def streamErrorText : Str := "Unrecognized type in stream".toList

def apos : Char := Char.ofNat 39

def nonStringLabel : Str :=
  [apos] ++ "len".toList ++ [apos] ++ " given non-string info by this".toList

/- Lines 60-173 of main.rs: UnityLog::len, the engine entry point. -/
def unityLen (cfg : Config) (v : Value) : Except ShellError (List Row) :=
  match v.value with
  | .primitive (.string s) => .ok (outputRows cfg s)
  | _ =>
    .error { error := streamErrorText, label := nonStringLabel, span := v.tag.span }

/- Concrete inputs used by the counterexamples and witnesses. -/
def sC1 : Str :=
  "UnityEngine.Debug:Log(String)\nHello\nstack1\n\nUnityEngine.Debug:Log(String)\nHello\nstack2".toList

def cfgNoCollapse : Config := { count := 3, no_collapse := true }

def s7 : Str := "UnityEngine.Debug:Log\n\nhello\nworld".toList

def s8 : Str := "UnityEngine.Debug:Log(String)\nMyDebugHelper".toList

def wS : Str := "hello\nworld".toList

def wE : LogLine :=
  { log_type := .Unknown, message := "hello".toList,
    callstack := "hello\nworld".toList, trimmed_callstack := "world".toList }

def wR : Row :=
  { type := "Unknown".toList, message := "hello".toList, short := "world".toList }

def e8 : LogLine :=
  { log_type := .Log, message := "UnityEngine.Debug:Log(String)".toList,
    callstack := s8, trimmed_callstack := "MyDebugHelper".toList }

def vInt : Value := { value := .primitive (.int 5), tag := { span := (3, 7) } }

def vStr : Value := { value := .primitive (.string []), tag := { span := (0, 0) } }

theorem replaceCR_no_cr (l : Str) : '\r' ∉ replaceCR l := by
  induction l using replaceCR.induct with
  | case1 rest ih =>
    rw [replaceCR]
    intro hmem
    rcases List.mem_cons.mp hmem with h1 | h1
    · exact absurd h1 (by decide)
    · exact ih h1
  | case2 c rest hne ih =>
    rw [replaceCR]
    · intro hmem
      rcases List.mem_cons.mp hmem with h1 | h1
      · exact hne h1.symm
      · exact ih h1
    · exact hne
  | case3 => rw [replaceCR]; exact List.not_mem_nil _

theorem replaceCRLF_of_no_cr (l : Str) (h : '\r' ∉ l) : replaceCRLF l = l := by
  induction l using replaceCRLF.induct with
  | case1 rest ih => exact absurd (List.mem_cons_self _ _) h
  | case2 c rest hne ih =>
    rw [replaceCRLF]
    · rw [ih (fun hm => h (List.mem_cons_of_mem _ hm))]
    · exact hne
  | case3 => rfl

theorem replaceCR_of_no_cr (l : Str) (h : '\r' ∉ l) : replaceCR l = l := by
  induction l using replaceCR.induct with
  | case1 rest ih => exact absurd (List.mem_cons_self _ _) h
  | case2 c rest hne ih =>
    rw [replaceCR]
    · rw [ih (fun hm => h (List.mem_cons_of_mem _ hm))]
    · exact hne
  | case3 => rfl

theorem sanitize_no_cr (s : Str) : '\r' ∉ sanitize s :=
  replaceCR_no_cr (replaceCRLF s)

theorem mem_splitEmptyNewline_subset (s : Str) :
    ∀ p ∈ splitEmptyNewline s, ∀ c ∈ p, c ∈ s := by
  induction s using splitEmptyNewline.induct with
  | case1 rest ih =>
    intro p hp
    rw [splitEmptyNewline] at hp
    rcases List.mem_cons.mp hp with h1 | h1
    · subst h1; intro c hc; exact absurd hc (List.not_mem_nil _)
    · intro c hc
      exact List.mem_cons_of_mem _ (List.mem_cons_of_mem _ (ih p h1 c hc))
  | case2 c0 rest hne heq ih =>
    intro p hp
    rw [splitEmptyNewline] at hp
    · rw [heq] at hp
      rcases List.mem_cons.mp hp with h1 | h1
      · subst h1
        intro c hc
        rcases List.mem_cons.mp hc with h2 | h2
        · exact h2 ▸ List.mem_cons_self _ _
        · exact absurd h2 (List.not_mem_nil _)
      · exact absurd h1 (List.not_mem_nil _)
    · exact hne
  | case3 c0 rest hne q qs heq ih =>
    intro p hp
    rw [splitEmptyNewline] at hp
    · rw [heq] at hp
      rcases List.mem_cons.mp hp with h1 | h1
      · subst h1
        intro c hc
        rcases List.mem_cons.mp hc with h2 | h2
        · exact h2 ▸ List.mem_cons_self _ _
        · exact List.mem_cons_of_mem _ (ih q (heq ▸ List.mem_cons_self q qs) c h2)
      · intro c hc
        exact List.mem_cons_of_mem _ (ih p (heq ▸ List.mem_cons_of_mem q h1) c hc)
    · exact hne
  | case4 =>
    intro p hp
    rw [splitEmptyNewline] at hp
    rcases List.mem_cons.mp hp with h1 | h1
    · subst h1; intro c hc; exact absurd hc (List.not_mem_nil _)
    · exact absurd h1 (List.not_mem_nil _)

theorem dropLastEmpty_subset (ps : List Str) (p : Str) (hp : p ∈ dropLastEmpty ps) :
    p ∈ ps := by
  rw [dropLastEmpty] at hp
  revert hp
  cases hlast : ps.getLast? with
  | none => exact fun hp => hp
  | some q =>
    cases hq : decide (q = []) with
    | false =>
      cases q with
      | nil => simp at hq
      | cons a b => exact fun hp => hp
    | true =>
      have hq2 : q = [] := of_decide_eq_true hq
      subst hq2
      exact fun hp => (List.dropLast_sublist ps).subset hp

theorem mem_splitTerminator_subset (s : Str) (p : Str) (hp : p ∈ splitTerminator s) :
    ∀ c ∈ p, c ∈ s :=
  mem_splitEmptyNewline_subset s p (dropLastEmpty_subset _ p hp)

theorem block_no_cr (s : Str) (b : Str) (hb : b ∈ splitTerminator (sanitize s)) :
    '\r' ∉ b :=
  fun hmem => sanitize_no_cr s (mem_splitTerminator_subset _ b hb '\r' hmem)

theorem linesOf_nil : linesOf [] = [] := rfl

theorem stripTrailingCR_subset (l : Str) : ∀ c ∈ stripTrailingCR l, c ∈ l := by
  rw [stripTrailingCR]
  split
  · exact fun c hc => (List.dropLast_sublist l).subset hc
  · exact fun c hc => hc

theorem stripTrailingCR_of_no_cr (l : Str) (h : '\r' ∉ l) : stripTrailingCR l = l := by
  rw [stripTrailingCR]
  split
  · next hg => exact absurd (List.mem_of_getLast?_eq_some hg) h
  · rfl

theorem splitNl_ne_nil (l : Str) : splitNl l ≠ [] := by
  induction l using splitNl.induct with
  | case1 => simp [splitNl]
  | case2 cs ih => simp [splitNl]
  | case3 c cs hne heq ih =>
    rw [splitNl]
    · rw [heq]; simp
    · exact hne
  | case4 c cs hne p ps heq ih =>
    rw [splitNl]
    · rw [heq]; simp
    · exact hne

theorem mem_splitNl_no_nl (l : Str) : ∀ q ∈ splitNl l, '\n' ∉ q := by
  induction l using splitNl.induct with
  | case1 =>
    intro q hq
    rw [splitNl] at hq
    rcases List.mem_cons.mp hq with h1 | h1
    · subst h1; exact List.not_mem_nil _
    · exact absurd h1 (List.not_mem_nil _)
  | case2 cs ih =>
    intro q hq
    rw [splitNl] at hq
    rcases List.mem_cons.mp hq with h1 | h1
    · subst h1; exact List.not_mem_nil _
    · exact ih q h1
  | case3 c cs hne heq ih =>
    intro q hq
    rw [splitNl] at hq
    · rw [heq] at hq
      rcases List.mem_cons.mp hq with h1 | h1
      · subst h1
        intro hm
        rcases List.mem_cons.mp hm with h2 | h2
        · exact hne h2.symm
        · exact absurd h2 (List.not_mem_nil _)
      · exact absurd h1 (List.not_mem_nil _)
    · exact hne
  | case4 c cs hne p ps heq ih =>
    intro q hq
    rw [splitNl] at hq
    · rw [heq] at hq
      rcases List.mem_cons.mp hq with h1 | h1
      · subst h1
        intro hm
        rcases List.mem_cons.mp hm with h2 | h2
        · exact hne h2.symm
        · exact ih p (heq ▸ List.mem_cons_self p ps) h2
      · exact ih q (heq ▸ List.mem_cons_of_mem p h1)
    · exact hne

theorem splitNl_head (l : Str) :
    (splitNl l).head? = some (l.takeWhile (fun c => c ≠ '\n')) := by
  induction l using splitNl.induct with
  | case1 => simp [splitNl]
  | case2 cs ih => rw [splitNl]; simp
  | case3 c cs hne heq ih =>
    rw [heq] at ih
    simp at ih
  | case4 c cs hne p ps heq ih =>
    rw [splitNl]
    · rw [heq]
      rw [heq] at ih
      simp only [List.head?_cons, Option.some.injEq] at ih ⊢
      rw [List.takeWhile_cons_of_pos (by simpa using hne)]
      rw [ih]
    · exact hne

theorem mem_stripInit (ps : List Str) (q : Str) (hq : q ∈ stripInit ps) :
    ∃ r ∈ ps, ∀ c ∈ q, c ∈ r := by
  induction ps using stripInit.induct with
  | case1 => rw [stripInit] at hq; exact absurd hq (List.not_mem_nil _)
  | case2 => rw [stripInit] at hq; simp at hq
  | case3 p hp =>
    rw [stripInit, if_neg hp] at hq
    rcases List.mem_cons.mp hq with h1 | h1
    · subst h1; exact ⟨q, List.mem_cons_self _ _, fun c hc => hc⟩
    · exact absurd h1 (List.not_mem_nil _)
  | case4 p ps hne ih =>
    rw [stripInit] at hq
    · rcases List.mem_cons.mp hq with h1 | h1
      · subst h1
        exact ⟨p, List.mem_cons_self _ _, fun c hc => stripTrailingCR_subset p c hc⟩
      · rcases ih h1 with ⟨r, hr, hsub⟩
        exact ⟨r, List.mem_cons_of_mem _ hr, hsub⟩
    · exact hne

theorem mem_linesOf_no_nl (l : Str) : ∀ p ∈ linesOf l, '\n' ∉ p := by
  intro p hp
  rw [linesOf] at hp
  rcases mem_stripInit _ p hp with ⟨r, hr, hsub⟩
  intro hnl
  exact mem_splitNl_no_nl l r hr (hsub _ hnl)

theorem linesOf_headD (l : Str) (h : '\r' ∉ l) :
    (linesOf l).headD [] = l.takeWhile (fun c => c ≠ '\n') := by
  have hh := splitNl_head l
  rw [linesOf]
  cases hs : splitNl l with
  | nil => exact absurd hs (splitNl_ne_nil l)
  | cons p ps =>
    rw [hs] at hh
    simp only [List.head?_cons, Option.some.injEq] at hh
    cases ps with
    | nil =>
      by_cases hp0 : p = []
      · rw [stripInit, if_pos hp0]
        rw [← hh, hp0]
        rfl
      · rw [stripInit, if_neg hp0]
        simpa using hh
    | cons q qs =>
      rw [stripInit]
      · simp only [List.headD_cons]
        rw [← hh]
        apply stripTrailingCR_of_no_cr
        intro hm
        exact h ((List.takeWhile_sublist _).subset (hh ▸ hm))
      · simp

theorem stripInit_length (ps : List Str) :
    ps ≠ [] → (stripInit ps).length =
      if ps.getLast? = some ([] : Str) then ps.length - 1 else ps.length := by
  induction ps using stripInit.induct with
  | case1 => intro hne; exact absurd rfl hne
  | case2 => intro hne; simp [stripInit]
  | case3 p hp =>
    intro hne
    rw [stripInit, if_neg hp]
    simp [hp]
  | case4 p ps hne2 ih =>
    intro hne
    have hps : ps ≠ [] := fun h0 => hne2 h0
    rw [stripInit]
    · rw [List.length_cons, ih hps]
      cases ps with
      | nil => exact absurd rfl hps
      | cons q qs =>
        rw [List.getLast?_cons_cons]
        by_cases hlast : (q :: qs).getLast? = some ([] : Str) <;>
          simp [hlast, List.length_cons]
    · exact hne2

theorem numLines_cons (c : Char) (cs : Str) : numLines cs ≤ numLines (c :: cs) := by
  by_cases hc : c = '\n'
  · subst hc
    have hsp : splitNl ('\n' :: cs) = [] :: splitNl cs := by rw [splitNl]
    rw [numLines, numLines, linesOf, linesOf, hsp]
    cases hs : splitNl cs with
    | nil => exact absurd hs (splitNl_ne_nil cs)
    | cons p ps =>
      have h1 := stripInit_length (p :: ps) (by simp)
      have h2 := stripInit_length ([] :: p :: ps) (by simp)
      rw [h1, h2, List.getLast?_cons_cons]
      by_cases hlast : (p :: ps).getLast? = some ([] : Str) <;>
        simp [hlast, List.length_cons]
  · cases hs : splitNl cs with
    | nil => exact absurd hs (splitNl_ne_nil cs)
    | cons p ps =>
      have hsp : splitNl (c :: cs) = (c :: p) :: ps := by
        rw [splitNl]
        · rw [hs]
        · exact hc
      rw [numLines, numLines, linesOf, linesOf, hsp, hs]
      cases ps with
      | nil =>
        have hL : stripInit [c :: p] = [c :: p] := by
          rw [stripInit, if_neg (by simp)]
        by_cases hp0 : p = []
        · have hR : stripInit [p] = [] := by rw [stripInit, if_pos hp0]
          rw [hL, hR]
          simp
        · have hR : stripInit [p] = [p] := by rw [stripInit, if_neg hp0]
          rw [hL, hR]
          simp
      | cons q qs =>
        have h1 := stripInit_length ((c :: p) :: q :: qs) (by simp)
        have h2 := stripInit_length (p :: q :: qs) (by simp)
        rw [h1, h2, List.getLast?_cons_cons, List.getLast?_cons_cons]
        by_cases hlast : (q :: qs).getLast? = some ([] : Str) <;>
          simp [hlast, List.length_cons]

theorem numLines_append_right (u t : Str) : numLines t ≤ numLines (u ++ t) := by
  induction u with
  | nil => simp
  | cons c u ih => exact le_trans ih (numLines_cons c (u ++ t))

theorem numLines_suffix_le (t s : Str) (h : t <:+ s) : numLines t ≤ numLines s := by
  obtain ⟨u, rfl⟩ := h
  exact numLines_append_right u t

theorem splitOnceNl_eq (l : Str) :
    splitOnceNl l =
      if '\n' ∈ l then
        some (l.takeWhile (fun c => c ≠ '\n'), (l.dropWhile (fun c => c ≠ '\n')).tail)
      else none := by
  induction l using splitOnceNl.induct with
  | case1 => simp [splitOnceNl]
  | case2 rest => rw [splitOnceNl]; simp
  | case3 c rest hne ih =>
    have hc : ¬(c = '\n') := hne
    have hc2 : ¬('\n' = c) := fun h2 => hc h2.symm
    rw [splitOnceNl]
    · rw [ih]
      by_cases hm : '\n' ∈ rest
      · simp [hm, hc, List.takeWhile_cons_of_pos, List.dropWhile_cons_of_pos]
      · simp [hm, hc2]
    · exact hne

theorem splitOnceNl_none_iff (l : Str) : splitOnceNl l = none ↔ '\n' ∉ l := by
  rw [splitOnceNl_eq]
  by_cases hm : '\n' ∈ l <;> simp [hm]

theorem splitOnceNl_some_parts (l : Str) (p : Str × Str) (h : splitOnceNl l = some p) :
    p.1 = l.takeWhile (fun c => c ≠ '\n') ∧
      p.2 = (l.dropWhile (fun c => c ≠ '\n')).tail := by
  rw [splitOnceNl_eq] at h
  by_cases hm : '\n' ∈ l
  · rw [if_pos hm] at h
    cases Option.some_injective _ h
    exact ⟨rfl, rfl⟩
  · rw [if_neg hm] at h
    exact absurd h (by simp)

theorem splitOnceNl_snd_suffix (l : Str) (p : Str × Str) (h : splitOnceNl l = some p) :
    p.2 <:+ l := by
  rw [(splitOnceNl_some_parts l p h).2]
  exact (List.tail_suffix _).trans (List.dropWhile_suffix _)

theorem contains_rfind_isSome (s pat : Str) (h : containsStr s pat = true) :
    ∃ i, rfindIdx pat s = some i := by
  rw [containsStr] at h
  rw [rfindIdx]
  rcases List.any_eq_true.mp h with ⟨i, hi, hocc⟩
  have hne : (List.range (s.length + 1)).filter (fun j => occursAt pat s j) ≠ [] := by
    intro h0
    have h1 := List.filter_eq_nil_iff.mp h0 i hi
    simp [hocc] at h1
  cases hg : ((List.range (s.length + 1)).filter (fun j => occursAt pat s j)).getLast? with
  | none => exact absurd (List.getLast?_eq_none_iff.mp hg) hne
  | some j => exact ⟨j, rfl⟩

theorem mem_parseLines (s : Str) (e : LogLine) (h : e ∈ parseLines s) :
    e ∈ primaryLines (sanitize s) ∨ e ∈ fallbackLines (sanitize s) := by
  simp only [parseLines] at h
  by_cases hp : (primaryLines (sanitize s)).isEmpty
  · right; simpa [hp] using h
  · left; simpa [hp] using h

theorem mem_primaryLines (inp : Str) (e : LogLine) (h : e ∈ primaryLines inp) :
    ∃ b, b ∈ splitTerminator inp ∧ containsStr b logKeyword = true ∧
      parseBlock b = some e := by
  rw [primaryLines] at h
  rcases List.mem_filterMap.mp h with ⟨b, hb, hpb⟩
  rcases List.mem_filter.mp hb with ⟨hb1, hb2⟩
  exact ⟨b, hb1, hb2, hpb⟩

theorem parseBlock_some_inv (b : Str) (e : LogLine) (h : parseBlock b = some e) :
    ∃ i p, rfindIdx logKeyword b = some i ∧ splitOnceNl (b.drop i) = some p ∧
      e = { log_type := classify (b.drop i), message := (linesOf b).headD [],
            callstack := b, trimmed_callstack := codeTrim p.2 } := by
  simp only [parseBlock] at h
  cases hr : rfindIdx logKeyword b with
  | none => rw [hr] at h; exact Option.noConfusion h
  | some i =>
    rw [hr] at h
    have h2 : (match splitOnceNl (b.drop i) with
        | none => none
        | some p =>
          some { log_type := classify (b.drop i), message := (linesOf b).headD [],
                 callstack := b, trimmed_callstack := codeTrim p.2 }) = some e := h
    cases hsp : splitOnceNl (b.drop i) with
    | none => rw [hsp] at h2; exact Option.noConfusion h2
    | some p =>
      rw [hsp] at h2
      exact ⟨i, p, rfl, hsp, (Option.some_injective _ h2).symm⟩

theorem mem_fallbackLines (inp : Str) (e : LogLine) (h : e ∈ fallbackLines inp) :
    ∃ b msg p, b ∈ splitTerminator inp ∧ (linesOf b).head? = some msg ∧
      splitOnceNl b = some p ∧
      e = { log_type := .Unknown, message := msg, callstack := b,
            trimmed_callstack := p.2 } := by
  rw [fallbackLines] at h
  rcases List.mem_filterMap.mp h with ⟨b, hb, hpb⟩
  have hp2 : (match (linesOf b).head? with
      | none => none
      | some msg =>
        match splitOnceNl b with
        | none => none
        | some p =>
          some { log_type := LogType.Unknown, message := msg, callstack := b,
                 trimmed_callstack := p.2 }) = some e := hpb
  cases hh : (linesOf b).head? with
  | none => rw [hh] at hp2; exact Option.noConfusion hp2
  | some msg =>
    rw [hh] at hp2
    have hp3 : (match splitOnceNl b with
        | none => none
        | some p =>
          some { log_type := LogType.Unknown, message := msg, callstack := b,
                 trimmed_callstack := p.2 }) = some e := hp2
    cases hsp : splitOnceNl b with
    | none => rw [hsp] at hp3; exact Option.noConfusion hp3
    | some p =>
      rw [hsp] at hp3
      exact ⟨b, msg, p, hb, hh, hsp, (Option.some_injective _ hp3).symm⟩

theorem codeTrim_suffix (ul : Str) : codeTrim ul <:+ ul := by
  simp only [codeTrim]
  split
  · split
    · exact List.suffix_refl ul
    · next p heq => exact splitOnceNl_snd_suffix ul p heq
  · exact List.suffix_refl ul

theorem trimStr_subset (l : Str) : ∀ c ∈ trimStr l, c ∈ l := by
  intro c hc
  rw [trimStr] at hc
  have h1 := List.mem_reverse.mp hc
  have h2 := (List.dropWhile_sublist _).subset h1
  have h3 := List.mem_reverse.mp h2
  exact (List.dropWhile_sublist _).subset h3

theorem headD_of_head?_eq_some (l : List Str) (a : Str) (h : l.head? = some a) :
    l.headD [] = a := by
  cases l with
  | nil => exact Option.noConfusion h
  | cons x t =>
    have hx : x = a := Option.some_injective _ h
    rw [List.headD_cons, hx]

/-- C3: the line-ending normalization of lines 65-66 (rewriting CRLF and
lone CR to LF) is idempotent: sanitizing an already-sanitized string
changes nothing. -/
theorem c3_sanitize_idempotent (s : Str) : sanitize (sanitize s) = sanitize s := by
  have h := sanitize_no_cr s
  rw [sanitize, replaceCRLF_of_no_cr _ h, replaceCR_of_no_cr _ h]

/-- C4: every entry produced by either the primary mode or the fallback
mode has its message field equal to the first line of its callstack
field. -/
theorem c4_message_is_first_line (s : Str) (e : LogLine) (h : e ∈ parseLines s) :
    e.message = firstLine e.callstack := by
  rcases mem_parseLines s e h with h1 | h1
  · rcases mem_primaryLines _ e h1 with ⟨b, hb, hcont, hpb⟩
    rcases parseBlock_some_inv b e hpb with ⟨i, p, hr, hsp, he⟩
    subst he
    show (linesOf b).headD [] = firstLine b
    rw [firstLine, linesOf_headD b (block_no_cr s b hb)]
  · rcases mem_fallbackLines _ e h1 with ⟨b, msg, p, hb, hh, hsp, he⟩
    subst he
    show msg = firstLine b
    rw [← headD_of_head?_eq_some _ msg hh, firstLine,
      linesOf_headD b (block_no_cr s b hb)]

/-- C4 witness: the theorem applied to a concrete fallback entry. -/
theorem c4_witness : wE.message = firstLine wE.callstack :=
  c4_message_is_first_line wS wE (by decide)

/-- C5: every entry produced by either parse mode has at most as many
lines in trimmed_callstack as in callstack. -/
theorem c5_trimmed_lines_le (s : Str) (e : LogLine) (h : e ∈ parseLines s) :
    numLines e.trimmed_callstack ≤ numLines e.callstack := by
  rcases mem_parseLines s e h with h1 | h1
  · rcases mem_primaryLines _ e h1 with ⟨b, hb, hcont, hpb⟩
    rcases parseBlock_some_inv b e hpb with ⟨i, p, hr, hsp, he⟩
    subst he
    show numLines (codeTrim p.2) ≤ numLines b
    have hsuf : codeTrim p.2 <:+ b :=
      (codeTrim_suffix p.2).trans
        ((splitOnceNl_snd_suffix _ p hsp).trans (List.drop_suffix i b))
    exact numLines_suffix_le _ _ hsuf
  · rcases mem_fallbackLines _ e h1 with ⟨b, msg, p, hb, hh, hsp, he⟩
    subst he
    exact numLines_suffix_le _ _ (splitOnceNl_snd_suffix b p hsp)

/-- C5 witness: the theorem applied to a concrete fallback entry. -/
theorem c5_witness : numLines wE.trimmed_callstack ≤ numLines wE.callstack :=
  c5_trimmed_lines_le wS wE (by decide)

/-- C10: the short field of every emitted record contains no newline
character, for every configuration. -/
theorem c10_short_single_line (cfg : Config) (s : Str) (r : Row)
    (h : r ∈ outputRows cfg s) : '\n' ∉ r.short := by
  rw [outputRows] at h
  rcases List.mem_map.mp h with ⟨e, he, hre⟩
  subst hre
  show '\n' ∉ shortOf cfg.count e.trimmed_callstack
  rw [shortOf]
  intro hmem
  rcases List.mem_flatten.mp hmem with ⟨q, hq, hcq⟩
  rcases List.mem_map.mp hq with ⟨pl, hpl, hql⟩
  subst hql
  have h1 : '\n' ∈ pl := trimStr_subset pl '\n' hcq
  have h2 : pl ∈ linesOf e.trimmed_callstack := List.take_subset _ _ hpl
  exact mem_linesOf_no_nl _ pl h2 h1

/-- C10 witness: the theorem applied to a concrete emitted row. -/
theorem c10_witness : '\n' ∉ wR.short :=
  c10_short_single_line defaultConfig wS wR (by decide)

/-- C1: refuted as stated by this evaluation; with the default options (the
no-collapse switch off) the engine emits two entries with an identical
(severity, message) pair, because lines 124-127 run the deduplication only
when no_collapse is true. -/
theorem c1_duplicates_survive_default :
    (collapseStep defaultConfig (parseLines sC1)).map (fun e => (e.log_type, e.message)) =
      [(LogType.Log, "UnityEngine.Debug:Log(String)".toList),
       (LogType.Log, "UnityEngine.Debug:Log(String)".toList)] := by decide

/-- C2: refuted as stated by this evaluation; with the no-collapse switch
on the engine sorts and deduplicates, so the output has one entry while
two blocks survived structural extraction. -/
theorem c2_no_collapse_flag_dedups :
    (outputRows cfgNoCollapse sC1).length = 1 ∧
    (primaryLines (sanitize sC1)).length = 2 := by decide

/-- C6: every emitted row's short field is the separator-free concatenation
of the whitespace-trimmed first summary-count lines of the entry's
trimmed_callstack; at most count lines are used, an empty trimmed_callstack
yields an empty short, and when fewer lines exist all of them are used. -/
theorem c6_short_shape (cfg : Config) (s : Str) (r : Row) (hc : 0 < cfg.count)
    (hr : r ∈ outputRows cfg s) :
    ∃ e ∈ collapseStep cfg (parseLines s),
      r.short = (((linesOf e.trimmed_callstack).take cfg.count).map trimStr).flatten ∧
      ((linesOf e.trimmed_callstack).take cfg.count).length ≤ cfg.count ∧
      (e.trimmed_callstack = [] → r.short = []) ∧
      ((linesOf e.trimmed_callstack).length ≤ cfg.count →
        (linesOf e.trimmed_callstack).take cfg.count = linesOf e.trimmed_callstack) := by
  rw [outputRows] at hr
  rcases List.mem_map.mp hr with ⟨e, he, hre⟩
  subst hre
  refine ⟨e, he, rfl, ?_, ?_, ?_⟩
  · rw [List.length_take]
    exact min_le_left _ _
  · intro h0
    show shortOf cfg.count e.trimmed_callstack = []
    rw [shortOf, h0, linesOf_nil]
    simp
  · exact List.take_of_length_le

/-- C6 witness: the theorem applied to a concrete row of the pipeline. -/
theorem c6_witness :
    ∃ e ∈ collapseStep defaultConfig (parseLines wS),
      wR.short = (((linesOf e.trimmed_callstack).take defaultConfig.count).map trimStr).flatten ∧
      ((linesOf e.trimmed_callstack).take defaultConfig.count).length ≤ defaultConfig.count ∧
      (e.trimmed_callstack = [] → wR.short = []) ∧
      ((linesOf e.trimmed_callstack).length ≤ defaultConfig.count →
        (linesOf e.trimmed_callstack).take defaultConfig.count = linesOf e.trimmed_callstack) :=
  c6_short_shape defaultConfig wS wR (by decide) (by decide)

/-- C7 counterexample: on this input one block contains the engine-log
marker, yet the primary mode produces no entry for it (no newline follows
the marker) and the engine takes the fallback branch, emitting an
Unknown-severity entry; this refutes the claimed equivalence with zero
marker-containing blocks. -/
theorem c7_counterexample :
    usesFallback s7 = true ∧
    ((splitTerminator (sanitize s7)).filter (fun b => containsStr b logKeyword)).length = 1 ∧
    (parseLines s7).map (fun e => e.log_type) = [LogType.Unknown] := by decide

/-- C7 amended: fallback mode is used if and only if no block of the
normalized, blank-line-split input both contains the engine-log marker and
has a newline at or after the start of the last marker occurrence
(equivalently, primary extraction yields zero entries). -/
theorem c7_fallback_iff_no_primary_entry (s : Str) :
    usesFallback s = true ↔
      ∀ b ∈ splitTerminator (sanitize s), containsStr b logKeyword = true →
        '\n' ∉ b.drop ((rfindIdx logKeyword b).getD 0) := by
  rw [usesFallback, List.isEmpty_iff, primaryLines, List.filterMap_eq_nil_iff]
  constructor
  · intro hall b hb hcont
    have h1 := hall b (List.mem_filter.mpr ⟨hb, hcont⟩)
    rcases contains_rfind_isSome b logKeyword hcont with ⟨i, hi⟩
    rw [hi]
    show '\n' ∉ b.drop i
    intro hnl
    cases hsp : splitOnceNl (b.drop i) with
    | none => exact (splitOnceNl_none_iff _ |>.mp hsp) hnl
    | some p =>
      simp only [parseBlock] at h1
      rw [hi] at h1
      have h3 : (match splitOnceNl (b.drop i) with
          | none => none
          | some p =>
            some { log_type := classify (b.drop i), message := (linesOf b).headD [],
                   callstack := b, trimmed_callstack := codeTrim p.2 }) =
          (none : Option LogLine) := h1
      rw [hsp] at h3
      exact Option.noConfusion h3
  · intro hall b hbf
    rcases List.mem_filter.mp hbf with ⟨hb, hcont⟩
    have h1 := hall b hb hcont
    rcases contains_rfind_isSome b logKeyword hcont with ⟨i, hi⟩
    rw [hi] at h1
    have hsp : splitOnceNl (b.drop i) = none := (splitOnceNl_none_iff _).mpr h1
    simp only [parseBlock]
    rw [hi]
    show (match splitOnceNl (b.drop i) with
      | none => none
      | some p =>
        some { log_type := classify (b.drop i), message := (linesOf b).headD [],
               callstack := b, trimmed_callstack := codeTrim p.2 }) =
      (none : Option LogLine)
    rw [hsp]

/-- C7 witness: the amended equivalence applied to a concrete input. -/
theorem c7_witness : usesFallback s7 = true :=
  (c7_fallback_iff_no_primary_entry s7).mpr (by decide)

theorem codeTrim_eq_amended (ul : Str) (h : '\r' ∉ ul) :
    codeTrim ul = amendedTrim ul := by
  have hfl : (linesOf ul).headD [] = firstLine ul := by
    rw [firstLine]
    exact linesOf_headD ul h
  simp only [codeTrim, amendedTrim, hfl]
  by_cases hcond :
      (containsStr (firstLine ul) "Debug".toList ||
        containsStr (firstLine ul) "Log".toList) = true
  · rw [if_pos hcond, if_pos hcond]
    by_cases hnl : '\n' ∈ ul
    · rw [if_pos hnl]
      cases hsp : splitOnceNl ul with
      | none => exact absurd ((splitOnceNl_none_iff ul).mp hsp) (by simpa using hnl)
      | some p => exact (splitOnceNl_some_parts ul p hsp).2
    · rw [if_neg hnl]
      have hsp : splitOnceNl ul = none := (splitOnceNl_none_iff ul).mpr hnl
      rw [hsp]
  · rw [if_neg hcond, if_neg hcond]

/-- C8 counterexample: on this single-block input the user-log region is
the single line MyDebugHelper, which contains the substring Debug, yet the
engine leaves trimmed_callstack equal to that whole region instead of
dropping the line as the claim requires (which would leave it empty). -/
theorem c8_counterexample :
    (parseLines s8).map (fun e => e.trimmed_callstack) = ["MyDebugHelper".toList] ∧
    userLogOf s8 = "MyDebugHelper".toList ∧
    containsStr (firstLine "MyDebugHelper".toList) "Debug".toList = true ∧
    claimTrim "MyDebugHelper".toList = [] ∧
    "MyDebugHelper".toList ≠ ([] : Str) := by decide

/-- C8 amended: in primary extraction mode, for every retained block, if
the first line of the user-log region contains Debug or Log and the region
contains a newline, trimmed_callstack is the region with that first line
dropped; otherwise (including a matching single-line region without any
newline) trimmed_callstack equals the user-log region unchanged. -/
theorem c8_trim_rule_amended (s : Str) (e : LogLine)
    (h : e ∈ primaryLines (sanitize s)) :
    e.trimmed_callstack = amendedTrim (userLogOf e.callstack) := by
  rcases mem_primaryLines _ e h with ⟨b, hb, hcont, hpb⟩
  rcases parseBlock_some_inv b e hpb with ⟨i, p, hr, hsp, he⟩
  subst he
  show codeTrim p.2 = amendedTrim (userLogOf b)
  have hul : userLogOf b = p.2 := by
    simp only [userLogOf]
    rw [hr]
    show (match splitOnceNl (b.drop i) with
      | none => ([] : Str)
      | some p2 => p2.2) = p.2
    rw [hsp]
  rw [hul]
  have hnocr : '\r' ∉ p.2 := by
    intro hm
    have hsuf : p.2 <:+ b :=
      (splitOnceNl_snd_suffix _ p hsp).trans (List.drop_suffix i b)
    obtain ⟨u, hu⟩ := hsuf
    exact block_no_cr s b hb (hu ▸ List.mem_append.mpr (Or.inr hm))
  exact codeTrim_eq_amended p.2 hnocr

/-- C8 witness: the amended trimming rule applied to a concrete primary
entry. -/
theorem c8_witness : e8.trimmed_callstack = amendedTrim (userLogOf e8.callstack) :=
  c8_trim_rule_amended s8 e8 (by decide)

/-- C9: the engine errors exactly on non-string input, with a labeled
error carrying the non-string-info text and the offending value's span,
and succeeds on every string input with the parsed rows. -/
theorem c9_error_iff_nonstring (cfg : Config) (v : Value) :
    ((unityLen cfg v).isOk = true ↔ isStringValue v = true) ∧
    (isStringValue v = false →
      unityLen cfg v =
        Except.error
          { error := streamErrorText, label := nonStringLabel, span := v.tag.span }) ∧
    (∀ s, v.value = UntaggedValue.primitive (Primitive.string s) →
      unityLen cfg v = Except.ok (outputRows cfg s)) := by
  obtain ⟨uv, tag⟩ := v
  cases uv with
  | primitive p =>
    cases p with
    | string s =>
      refine ⟨by simp [unityLen, isStringValue, Except.isOk, Except.toBool], ?_, ?_⟩
      · intro hf
        simp [isStringValue] at hf
      · intro s2 hs
        have h1 := UntaggedValue.primitive.inj hs
        have h2 := Primitive.string.inj h1
        subst h2
        rfl
    | int i =>
      exact ⟨by simp [unityLen, isStringValue, Except.isOk, Except.toBool], fun _ => rfl,
        fun s2 hs => by simp at hs⟩
    | boolean bb =>
      exact ⟨by simp [unityLen, isStringValue, Except.isOk, Except.toBool], fun _ => rfl,
        fun s2 hs => by simp at hs⟩
    | nothing =>
      exact ⟨by simp [unityLen, isStringValue, Except.isOk, Except.toBool], fun _ => rfl,
        fun s2 hs => by simp at hs⟩
  | row =>
    exact ⟨by simp [unityLen, isStringValue, Except.isOk, Except.toBool], fun _ => rfl,
      fun s2 hs => by simp at hs⟩
  | table =>
    exact ⟨by simp [unityLen, isStringValue, Except.isOk, Except.toBool], fun _ => rfl,
      fun s2 hs => by simp at hs⟩

/-- C9 witness: a concrete non-string value is rejected with the labeled
error and a concrete string value succeeds. -/
theorem c9_witness :
    unityLen defaultConfig vInt =
      Except.error
        { error := streamErrorText, label := nonStringLabel, span := (3, 7) } ∧
    unityLen defaultConfig vStr = Except.ok [] :=
  ⟨(c9_error_iff_nonstring defaultConfig vInt).2.1 rfl, rfl⟩

end Unity
